import Mathlib

/-!
Verification development for the benchmark selection/expansion engine,
version-compatibility filter and process-timing primitive of the
`performance` repository (`performance/run.py` and
`performance/benchmarks/__init__.py`).

Python strings are modelled as Lean `String` (a list of code points, matching
CPython's `str`); Python's string comparison operators compare code points
lexicographically, which `pyStrLe` below implements structurally so that it
evaluates inside the kernel.  Python `set`s of strings are modelled as
duplicate-free `List String` values whose order is an unobservable
implementation detail; membership is the only property the theorems rely on.
Python exceptions are modelled with `Except`.
-/

/-- Lexicographic (code-point) comparison of two lists of characters.
This is exactly CPython's `<=` on `str` values, used by
`run.py:FilterBenchmarks` (`minver <= basever <= maxver`) and by the
module-level `2n3` computation in `benchmarks/__init__.py`. -/
def pyLeAux : List Char → List Char → Bool
  | [], _ => true
  | _ :: _, [] => false
  | a :: as, b :: bs =>
    if a < b then true
    else if b < a then false
    else pyLeAux as bs

/-- Python's `<=` on strings (lexicographic by code point). -/
def pyStrLe (a b : String) : Bool :=
  pyLeAux a.data b.data

/-- The Python string order as a relation, for sortedness statements. -/
def pyLeRel (a b : String) : Prop := pyStrLe a b = true

instance : DecidableRel pyLeRel := fun a b =>
  inferInstanceAs (Decidable (pyStrLe a b = true))

/-- Splitting a list of characters at every occurrence of a separator
character: the model of Python's `str.split(sep)` for a one-character
separator, as used by `ParseBenchmarksOption` (`benchmarks_opt.split(",")`).
`"".split(",") == [""]` and separators produce empty segments, exactly as in
Python. -/
def splitOnCharL (sep : Char) : List Char → List (List Char)
  | [] => [[]]
  | c :: cs =>
    if c = sep then [] :: splitOnCharL sep cs
    else
      match splitOnCharL sep cs with
      | [] => [[c]]
      | t :: ts => (c :: t) :: ts

/-- A benchmark-group catalogue: the `bench_groups` dict, group name to
member names (a member may itself be a group name). -/
abbrev Groups := List (String × List String)

/-- The `bench_funcs` dict: benchmark name to the optional `_range`
attribute (the version interval set by the `VersionRange` decorator);
`none` models a function without the attribute, for which
`FilterBenchmarks` falls back to `getattr(..., '_range', ('2.0', '4.0'))`. -/
abbrev Funcs := List (String × Option (String × String))

/-- Sequential expansion of a list of names, concatenating the expansion of
each: the inner `for name in expansion: for name in _ExpandBenchmarkName(...)`
double loop of `run.py:_ExpandBenchmarkName`. -/
def expandAll (f : String → Option (List String)) : List String → Option (List String)
  | [] => some []
  | n :: ns => do
    let l ← f n
    let r ← expandAll f ns
    pure (l ++ r)

/-- Recursive benchmark-name expansion, `run.py:_ExpandBenchmarkName`.
The Python generator recurses with no fuel; the `Nat` argument bounds the
recursion depth (fuel `0` returning `none` marks divergence), and for every
fuel large enough the result is the Python one.  Faithful detail: the source
guards recursion with `if expansion:`, so a name bound to an EMPTY member
list is falsy and is yielded as-is, exactly like a leaf; only a name bound
to a non-empty list is expanded. -/
def ExpandBenchmarkName (bench_groups : Groups) : Nat → String → Option (List String)
  | 0 => fun _ => none
  | fuel + 1 => fun bm_name =>
    match List.lookup bm_name bench_groups with
    | some (m :: ms) => expandAll (ExpandBenchmarkName bench_groups fuel) (m :: ms)
    | _ => some [bm_name]

/-- The expansion of a name as a plain list (`[]` when the fuel ran out). -/
def expandSet (g : Groups) (fuel : Nat) (bm : String) : List String :=
  (ExpandBenchmarkName g fuel bm).getD []

/-- Adding every element of the second list to the first, skipping elements
already present: models repeated Python `set.add`. -/
def addAll (acc : List String) : List String → List String
  | [] => acc
  | x :: xs => addAll (if x ∈ acc then acc else acc ++ [x]) xs

/-- Positive (inclusion) tokens of the `-b` option string: the non-empty
comma-separated tokens not starting with `-`, lower-cased, as a set
(`positive_benchmarks` in `run.py:ParseBenchmarksOption`). -/
def positivesOf (benchmarks_opt : String) : List String :=
  addAll []
    ((splitOnCharL ',' benchmarks_opt.data).filterMap fun bm =>
      match bm with
      | [] => none
      | c :: cs =>
        if c = '-' then none
        else some (String.mk ((c :: cs).map Char.toLower)))

/-- Negative (exclusion) tokens of the `-b` option string: the non-empty
tokens starting with `-`, with the marker stripped and lower-cased, as a set
(`negative_benchmarks` in `run.py:ParseBenchmarksOption`). -/
def negativesOf (benchmarks_opt : String) : List String :=
  addAll []
    ((splitOnCharL ',' benchmarks_opt.data).filterMap fun bm =>
      match bm with
      | [] => none
      | c :: cs =>
        if c = '-' then some (String.mk (cs.map Char.toLower))
        else none)

/-- Faults of `ParseBenchmarksOption` / `FilterBenchmarks`:
`unsupportedExclusion` models `ValueError("Negative groups not supported")`,
`keyError` models Python `KeyError` (from `set.remove` on an absent element
or a missing dict key), and `noExpansion` marks fuel exhaustion of the
unbounded Python recursion. -/
inductive ParseError where
  | unsupportedExclusion (g : String)
  | keyError (k : String)
  | noExpansion
deriving DecidableEq

/-- Processing loop over the positive tokens: each token is expanded and
every expanded name found in `legal` is added to the running set, while the
others only produce a warning (`logging.warning("No benchmark named %s")`)
and are dropped. -/
def ProcessPositives (g : Groups) (legal : List String) (fuel : Nat) :
    List String → List String → Except ParseError (List String)
  | [], should_run => .ok should_run
  | name :: rest, should_run =>
    match ExpandBenchmarkName g fuel name with
    | none => .error .noExpansion
    | some ex =>
      ProcessPositives g legal fuel rest
        (addAll should_run (ex.filter fun bm => decide (bm ∈ legal)))

/-- Processing loop over the negative tokens, mirroring the source order of
checks: a token that is a key of `bench_groups` raises
`ValueError` (`unsupportedExclusion`); otherwise a token not in `legal` only
warns; otherwise `should_run.remove(bm)` removes it when present and raises
`KeyError` when absent.  The Python loop iterates over a hash set whose
order is unspecified; here the tokens are processed in their first-occurrence
order, which fixes WHICH fault is raised when several tokens fault but does
not affect any non-faulting outcome. -/
def ProcessNegatives (g : Groups) (legal : List String) :
    List String → List String → Except ParseError (List String)
  | [], should_run => .ok should_run
  | bm :: rest, should_run =>
    if (List.lookup bm g).isSome then .error (.unsupportedExclusion bm)
    else if bm ∈ legal then
      if bm ∈ should_run then ProcessNegatives g legal rest (should_run.erase bm)
      else .error (.keyError bm)
    else ProcessNegatives g legal rest should_run

/-- Embedding of `run.py:ParseBenchmarksOption` (the unused `fast` parameter
of the source is omitted).  `legal_benchmarks = bench_groups["all"]`; when no
positive token is present `should_run = set(_ExpandBenchmarkName("default"))`
(note: NOT restricted to `legal`); then the positive and negative loops run. -/
def ParseBenchmarksOption (benchmarks_opt : String) (bench_groups : Groups)
    (fuel : Nat) : Except ParseError (List String) :=
  match List.lookup "all" bench_groups with
  | none => .error (.keyError "all")
  | some legal =>
    let pos := positivesOf benchmarks_opt
    let neg := negativesOf benchmarks_opt
    match (if pos = [] then (ExpandBenchmarkName bench_groups fuel "default").map (addAll [])
           else some []) with
    | none => .error .noExpansion
    | some should_run =>
      match ProcessPositives bench_groups legal fuel pos should_run with
      | .error e => .error e
      | .ok sr => ProcessNegatives bench_groups legal neg sr

/-- Version interval of a benchmark as `FilterBenchmarks` retrieves it:
`getattr(bench_funcs[bm], '_range', ('2.0', '4.0'))`; `none` means the
`bench_funcs[bm]` dict access itself raises `KeyError`. -/
def rangeOf (funcs : Funcs) (bm : String) : Option (String × String) :=
  match List.lookup bm funcs with
  | some (some r) => some r
  | some none => some ("2.0", "4.0")
  | none => none

/-- Embedding of `run.py:FilterBenchmarks`: keeps a benchmark iff
`minver <= basever <= maxver` where the three values are PYTHON STRINGS and
the comparison is plain string comparison.  `basever` is the target
interpreter version (`interpreter_version(python)` in the source, an
external collaborator), taken here as a parameter. -/
def FilterBenchmarks (benchmarks : List String) (bench_funcs : Funcs)
    (basever : String) : Except ParseError (List String) :=
  match benchmarks with
  | [] => .ok []
  | bm :: rest =>
    match rangeOf bench_funcs bm with
    | none => .error (.keyError bm)
    | some (minver, maxver) =>
      match FilterBenchmarks rest bench_funcs basever with
      | .error e => .error e
      | .ok res =>
        .ok (if pyStrLe minver basever && pyStrLe basever maxver then bm :: res else res)

/-- Modelled from the spec: the "numeric-segment version ordering" the spec
claims for the version filter ("dotted numeric segments compared
lexicographically by each numeric component, not as plain strings", so
"2.10" > "2.9").  `FilterBenchmarks` in the source does NOT use this; the
definition exists to state the refinement claim C1 against the code.
Digit segments are converted with the usual base-10 fold. -/
def segToNat (l : List Char) : Nat :=
  l.foldl (fun n c => n * 10 + (c.toNat - 48)) 0

/-- Modelled from the spec: lexicographic comparison of numeric segments. -/
def natSegLe : List Nat → List Nat → Bool
  | [], _ => true
  | _ :: _, [] => false
  | a :: as, b :: bs =>
    if a < b then true
    else if b < a then false
    else natSegLe as bs

/-- Modelled from the spec: the numeric-segment version order on dotted
version strings. -/
def specVersionLe (a b : String) : Bool :=
  natSegLe ((splitOnCharL '.' a.data).map segToNat)
    ((splitOnCharL '.' b.data).map segToNat)

/-- Outcome of one spawned child process, as `MeasureCommand` observes it:
the exit code, the captured standard error, and the delta of
`GetChildUserTime()` (cumulative children CPU time, hence nondecreasing, so
the delta is a natural number) across the run. -/
structure ChildRun where
  returncode : Int
  stderr : String
  cpuDelta : Nat
deriving DecidableEq

/-- Faults of `MeasureCommand`: `runtimeError` models `RuntimeError` with its
message, `assertionFailed` models the `assert elapsed != 0` failure. -/
inductive MeasureError where
  | runtimeError (msg : String)
  | assertionFailed
deriving DecidableEq

/-- The returned sample collection (`perf.Benchmark` holding one
`perf.Run(times, metadata={'name': name})`). -/
structure Bench where
  times : List Nat
  name : String
deriving DecidableEq

/-- The measurement loop of `benchmarks/__init__.py:MeasureCommand`:
`remaining` iterations left, `i` the index of the next child run in the
overall run sequence `runs`, `times` the samples collected so far.  Source
order: spawn and wait, then `if subproc.returncode != 0: raise
RuntimeError("Benchmark died: " + stderr)`, then `elapsed = end - start`,
`assert elapsed != 0`, `times.append(elapsed)`. -/
def MeasureLoop (runs : Nat → ChildRun) :
    Nat → Nat → List Nat → Except MeasureError (List Nat)
  | _, 0, times => .ok times
  | i, remaining + 1, times =>
    let cr := runs i
    if cr.returncode ≠ 0 then
      .error (.runtimeError ("Benchmark died: " ++ cr.stderr))
    else if cr.cpuDelta = 0 then .error .assertionFailed
    else MeasureLoop runs (i + 1) remaining (times ++ [cr.cpuDelta])

/-- Embedding of `benchmarks/__init__.py:MeasureCommand`.  The behaviour of
the spawned children is the oracle `runs`: index `0` is the priming run
(`CallAndCaptureOutput(command, env=env)`, which on a non-zero exit code
writes the captured stderr to the host's stderr stream and raises
`RuntimeError("Benchmark died")` WITHOUT the text attached, see
`run.py:CallAndCaptureOutput`), and indices `1 .. iterations` are the timed
runs of the measurement loop. -/
def MeasureCommand (name : String) (runs : Nat → ChildRun) (iterations : Nat) :
    Except MeasureError Bench :=
  if (runs 0).returncode ≠ 0 then .error (.runtimeError "Benchmark died")
  else
    match MeasureLoop runs 1 iterations [] with
    | .error e => .error e
    | .ok times => .ok ⟨times, name⟩

/-- The `deprecated` group of `BENCH_GROUPS` (`benchmarks/__init__.py`). -/
def deprecatedGroup : List String :=
  ["iterative_count", "json_dump", "threaded_count"]

/-- The `BENCH_FUNCS` table built by `_FindAllBenchmarks(globals())`: every
`BM_`-prefixed function, keyed by its name with the prefix stripped and
lower-cased, with the `_range` attribute attached by its `VersionRange`
decorator (`minver or '2.0', maxver or '9.0'`).  Every benchmark in the file
carries the decorator, so every entry is `some`. -/
def BENCH_FUNCS : Funcs :=
  [("pybench", some ("2.0", "9.0")),
   ("2to3", some ("2.0", "9.0")),
   ("hg_startup", some ("2.0", "2.7")),
   ("chameleon", some ("2.7", "9.0")),
   ("tornado_http", some ("2.0", "9.0")),
   ("django_template", some ("2.7", "9.0")),
   ("float", some ("2.0", "9.0")),
   ("mako", some ("2.0", "9.0")),
   ("pathlib", some ("2.0", "9.0")),
   ("fastpickle", some ("2.0", "9.0")),
   ("fastunpickle", some ("2.0", "9.0")),
   ("pickle_list", some ("2.0", "9.0")),
   ("unpickle_list", some ("2.0", "9.0")),
   ("pickle_dict", some ("2.0", "9.0")),
   ("slowpickle", some ("2.0", "2.7")),
   ("slowunpickle", some ("2.0", "2.7")),
   ("etree_parse", some ("2.0", "9.0")),
   ("etree_iterparse", some ("2.0", "9.0")),
   ("etree_generate", some ("2.0", "9.0")),
   ("etree_process", some ("2.0", "9.0")),
   ("json_dump", some ("2.0", "9.0")),
   ("json_load", some ("2.0", "9.0")),
   ("json_dump_v2", some ("2.0", "9.0")),
   ("nqueens", some ("2.0", "9.0")),
   ("chaos", some ("2.0", "9.0")),
   ("fannkuch", some ("2.0", "9.0")),
   ("go", some ("2.0", "9.0")),
   ("meteor_contest", some ("2.0", "9.0")),
   ("spectral_norm", some ("2.0", "9.0")),
   ("telco", some ("2.0", "9.0")),
   ("hexiom2", some ("2.0", "9.0")),
   ("raytrace", some ("2.0", "9.0")),
   ("silent_logging", some ("2.0", "9.0")),
   ("simple_logging", some ("2.0", "9.0")),
   ("formatted_logging", some ("2.0", "9.0")),
   ("normal_startup", some ("2.0", "9.0")),
   ("startup_nosite", some ("2.0", "9.0")),
   ("regex_v8", some ("2.0", "9.0")),
   ("regex_effbot", some ("2.0", "9.0")),
   ("regex_compile", some ("2.0", "9.0")),
   ("threaded_count", some ("2.0", "9.0")),
   ("iterative_count", some ("2.0", "9.0")),
   ("unpack_sequence", some ("2.0", "9.0")),
   ("call_simple", some ("2.0", "9.0")),
   ("call_method", some ("2.0", "9.0")),
   ("call_method_unknown", some ("2.0", "9.0")),
   ("call_method_slots", some ("2.0", "9.0")),
   ("nbody", some ("2.0", "9.0")),
   ("spambayes", some ("2.0", "2.7")),
   ("html5lib", some ("2.0", "2.7")),
   ("richards", some ("2.0", "9.0")),
   ("pidigits", some ("2.0", "9.0"))]

/-- The module-level loop computing the `2n3` group: iterate `BENCH_FUNCS`,
skip names in the deprecated set, fetch the interval with the
`('2.0', '4.0')` fallback and keep the name iff
`minver <= '2.7' and '3.2' <= maxver` (Python string comparisons). -/
def Calculate2n3 : Funcs → List String → List String
  | [], _ => []
  | (bm, rng) :: rest, dep =>
    let r := Calculate2n3 rest dep
    if bm ∈ dep then r
    else
      let mm := rng.getD ("2.0", "4.0")
      if pyStrLe mm.1 "2.7" && pyStrLe "3.2" mm.2 then bm :: r else r

/-- The `BENCH_GROUPS` dict after the module-level code ran: the literal
groups plus the computed `2n3` entry
(`group2n3 = BENCH_GROUPS["2n3"] = []` then filled by the loop). -/
def BENCH_GROUPS : Groups :=
  [("default", ["2to3", "chameleon", "django_template", "nbody",
                "tornado_http", "fastpickle", "fastunpickle",
                "regex_v8", "json_dump_v2", "json_load"]),
   ("startup", ["normal_startup", "startup_nosite", "hg_startup"]),
   ("regex", ["regex_v8", "regex_effbot", "regex_compile"]),
   ("threading", ["threaded_count", "iterative_count"]),
   ("serialize", ["slowpickle", "slowunpickle",
                  "fastpickle", "fastunpickle",
                  "etree",
                  "json_dump_v2", "json_load"]),
   ("etree", ["etree_generate", "etree_parse",
              "etree_iterparse", "etree_process"]),
   ("apps", ["2to3", "chameleon", "html5lib", "spambayes", "tornado_http"]),
   ("calls", ["call_simple", "call_method", "call_method_slots",
              "call_method_unknown"]),
   ("math", ["float", "nbody", "pidigits"]),
   ("template", ["django_template", "mako"]),
   ("logging", ["silent_logging", "simple_logging", "formatted_logging"]),
   ("deprecated", deprecatedGroup),
   ("2n3", Calculate2n3 BENCH_FUNCS deprecatedGroup)]

/-- Embedding of `benchmarks/__init__.py:CreateBenchGroups`: copies the
group dict and adds the `all` group,
`sorted(b for b in bench_funcs if b not in deprecated)`; `none` models the
`KeyError` when the dict has no `deprecated` entry.  The source catalogue
has no pre-existing `all` key, so the dict assignment appends a new entry. -/
def CreateBenchGroups (bench_funcs : Funcs) (bench_groups : Groups) : Option Groups :=
  (List.lookup "deprecated" bench_groups).map fun deprecated =>
    bench_groups ++
      [("all", List.insertionSort pyLeRel
        ((bench_funcs.map Prod.fst).filter fun b => decide (b ∉ deprecated)))]

/-- The catalogue `get_benchmark_groups` hands to the commands: the groups
with the synthesized `all` entry. -/
def BENCH_GROUPS_ALL : Groups :=
  (CreateBenchGroups BENCH_FUNCS BENCH_GROUPS).getD BENCH_GROUPS

/-- Execution-order skeleton of `run.py:cmd_run`: the selection is parsed,
version-filtered, and then run one benchmark at a time in the order of
`to_run = list(sorted(should_run))`.  The returned list is the exact
execution order of the benchmark loop. -/
def cmd_run_order (benchmarks_opt : String) (bench_groups : Groups)
    (bench_funcs : Funcs) (basever : String) (fuel : Nat) :
    Except ParseError (List String) :=
  match ParseBenchmarksOption benchmarks_opt bench_groups fuel with
  | .error e => .error e
  | .ok should_run =>
    match FilterBenchmarks should_run bench_funcs basever with
    | .error e => .error e
    | .ok sr => .ok (List.insertionSort pyLeRel sr)

/-- The predicate the final `should_run` set of `ParseBenchmarksOption`
satisfies on the inclusion side: when there is no positive token, membership
in the expansion of `default` (NOT restricted to `legal`); otherwise
membership in the expansion of some positive token, restricted to `legal`. -/
def claimIncluded (g : Groups) (fuel : Nat) (legal : List String)
    (pos : List String) (x : String) : Prop :=
  (pos = [] ∧ x ∈ expandSet g fuel "default") ∨
  (pos ≠ [] ∧ ∃ p, p ∈ pos ∧ x ∈ expandSet g fuel p ∧ x ∈ legal)

instance (g : Groups) (fuel : Nat) (legal : List String) (pos : List String)
    (x : String) : Decidable (claimIncluded g fuel legal pos x) := by
  unfold claimIncluded
  infer_instance

/-- The retention test of `FilterBenchmarks` as a Boolean predicate on one
name: the interval is found and `minver <= basever <= maxver` as Python
strings. -/
def keepB (funcs : Funcs) (basever : String) (bm : String) : Bool :=
  match rangeOf funcs bm with
  | some (minver, maxver) => pyStrLe minver basever && pyStrLe basever maxver
  | none => false

/-- Unfolding of `expandAll` on a cons cell. -/
theorem expandAll_cons (f : String → Option (List String)) (n : String)
    (ns : List String) :
    expandAll f (n :: ns) =
      (f n).bind fun l => (expandAll f ns).bind fun r => some (l ++ r) := rfl

/-- Unfolding of `ExpandBenchmarkName` at zero fuel. -/
theorem expand_zero (g : Groups) (bm : String) :
    ExpandBenchmarkName g 0 bm = none := rfl

/-- Unfolding of `ExpandBenchmarkName` at positive fuel. -/
theorem expand_succ (g : Groups) (f : Nat) (bm : String) :
    ExpandBenchmarkName g (f + 1) bm =
      match List.lookup bm g with
      | some (m :: ms) => expandAll (ExpandBenchmarkName g f) (m :: ms)
      | _ => some [bm] := rfl

/-- Transitivity of the Python string order. -/
theorem pyLeAux_trans : ∀ as bs cs : List Char,
    pyLeAux as bs = true → pyLeAux bs cs = true → pyLeAux as cs = true := by
  intro as
  induction as with
  | nil => intro bs cs h1 h2; simp [pyLeAux]
  | cons a as ih =>
    intro bs cs h1 h2
    cases bs with
    | nil => simp [pyLeAux] at h1
    | cons b bs =>
      cases cs with
      | nil => simp [pyLeAux] at h2
      | cons c cs =>
        simp only [pyLeAux] at h1 h2 ⊢
        rcases lt_trichotomy a b with hab | rfl | hab
        · rcases lt_trichotomy b c with hbc | rfl | hbc
          · simp [lt_trans hab hbc]
          · simp [hab]
          · rw [if_neg (lt_asymm hbc), if_pos hbc] at h2; simp at h2
        · rw [if_neg (lt_irrefl a), if_neg (lt_irrefl a)] at h1
          rcases lt_trichotomy a c with hac | rfl | hac
          · simp [hac]
          · rw [if_neg (lt_irrefl a), if_neg (lt_irrefl a)] at h2 ⊢
            exact ih bs cs h1 h2
          · rw [if_neg (lt_asymm hac), if_pos hac] at h2; simp at h2
        · rw [if_neg (lt_asymm hab), if_pos hab] at h1; simp at h1

/-- Totality of the Python string order. -/
theorem pyLeAux_total : ∀ as bs : List Char,
    pyLeAux as bs = true ∨ pyLeAux bs as = true := by
  intro as
  induction as with
  | nil => intro bs; left; simp [pyLeAux]
  | cons a as ih =>
    intro bs
    cases bs with
    | nil => right; simp [pyLeAux]
    | cons b bs =>
      simp only [pyLeAux]
      rcases lt_trichotomy a b with hab | rfl | hab
      · left; simp [hab]
      · rw [if_neg (lt_irrefl a), if_neg (lt_irrefl a), if_neg (lt_irrefl a),
           if_neg (lt_irrefl a)]
        exact ih bs
      · right; simp [hab]

/-- Antisymmetry of the Python string order. -/
theorem pyLeAux_antisymm : ∀ as bs : List Char,
    pyLeAux as bs = true → pyLeAux bs as = true → as = bs := by
  intro as
  induction as with
  | nil =>
    intro bs h1 h2
    cases bs with
    | nil => rfl
    | cons b bs => simp [pyLeAux] at h2
  | cons a as ih =>
    intro bs h1 h2
    cases bs with
    | nil => simp [pyLeAux] at h1
    | cons b bs =>
      simp only [pyLeAux] at h1 h2
      rcases lt_trichotomy a b with hab | rfl | hab
      · rw [if_neg (lt_asymm hab), if_pos hab] at h2; simp at h2
      · rw [if_neg (lt_irrefl a), if_neg (lt_irrefl a)] at h1 h2
        rw [ih bs h1 h2]
      · rw [if_neg (lt_asymm hab), if_pos hab] at h1; simp at h1

/-- Transitivity of `pyStrLe`. -/
theorem pyStrLe_trans {a b c : String} :
    pyStrLe a b = true → pyStrLe b c = true → pyStrLe a c = true :=
  pyLeAux_trans a.data b.data c.data

/-- Totality of `pyStrLe`. -/
theorem pyStrLe_total (a b : String) :
    pyStrLe a b = true ∨ pyStrLe b a = true :=
  pyLeAux_total a.data b.data

/-- Antisymmetry of `pyStrLe`. -/
theorem pyStrLe_antisymm {a b : String} :
    pyStrLe a b = true → pyStrLe b a = true → a = b := by
  intro h1 h2
  have h := pyLeAux_antisymm a.data b.data h1 h2
  cases a
  cases b
  exact congrArg String.mk h

instance : IsTotal String pyLeRel := ⟨fun a b => pyStrLe_total a b⟩

instance : IsTrans String pyLeRel := ⟨fun _ _ _ => pyStrLe_trans⟩

instance : IsAntisymm String pyLeRel := ⟨fun _ _ => pyStrLe_antisymm⟩

/-- Membership in `addAll` is membership in either list. -/
theorem mem_addAll : ∀ (l acc : List String) (x : String),
    x ∈ addAll acc l ↔ x ∈ acc ∨ x ∈ l := by
  intro l
  induction l with
  | nil => intro acc x; simp [addAll]
  | cons y ys ih =>
    intro acc x
    simp only [addAll]
    by_cases hy : y ∈ acc
    · rw [if_pos hy, ih]
      constructor
      · rintro (h | h)
        · exact Or.inl h
        · exact Or.inr (List.mem_cons_of_mem _ h)
      · rintro (h | h)
        · exact Or.inl h
        · rcases List.mem_cons.mp h with rfl | h
          · exact Or.inl hy
          · exact Or.inr h
    · rw [if_neg hy, ih]
      simp only [List.mem_append, List.mem_singleton, List.mem_cons]
      tauto

/-- The result of `addAll` is duplicate-free when the accumulator is. -/
theorem nodup_addAll : ∀ (l acc : List String), acc.Nodup → (addAll acc l).Nodup := by
  intro l
  induction l with
  | nil => intro acc h; simpa [addAll] using h
  | cons y ys ih =>
    intro acc h
    simp only [addAll]
    by_cases hy : y ∈ acc
    · rw [if_pos hy]; exact ih acc h
    · rw [if_neg hy]
      refine ih _ (List.Nodup.append h (List.nodup_singleton y) ?_)
      intro a ha hb
      rcases List.mem_singleton.mp hb with rfl
      exact hy ha

/-- The positive token set is duplicate-free. -/
theorem positivesOf_nodup (opt : String) : (positivesOf opt).Nodup :=
  nodup_addAll _ [] List.nodup_nil

/-- The negative token set is duplicate-free. -/
theorem negativesOf_nodup (opt : String) : (negativesOf opt).Nodup :=
  nodup_addAll _ [] List.nodup_nil

/-- Fuel monotonicity: a successful expansion is stable under more fuel
(both for a single name and for a member list). -/
theorem expand_mono (g : Groups) : ∀ fuel : Nat,
    (∀ bm l fuel2, fuel ≤ fuel2 →
      ExpandBenchmarkName g fuel bm = some l → ExpandBenchmarkName g fuel2 bm = some l) ∧
    (∀ ns l fuel2, fuel ≤ fuel2 →
      expandAll (ExpandBenchmarkName g fuel) ns = some l →
      expandAll (ExpandBenchmarkName g fuel2) ns = some l) := by
  intro fuel
  induction fuel with
  | zero =>
    constructor
    · intro bm l fuel2 _ h
      rw [expand_zero] at h
      cases h
    · intro ns l fuel2 _ h
      cases ns with
      | nil => exact h
      | cons n ns =>
        rw [expandAll_cons, expand_zero] at h
        cases h
  | succ f ih =>
    have part1 : ∀ bm l fuel2, f + 1 ≤ fuel2 →
        ExpandBenchmarkName g (f + 1) bm = some l →
        ExpandBenchmarkName g fuel2 bm = some l := by
      intro bm l fuel2 hle h
      obtain ⟨f2, rfl⟩ : ∃ f2, fuel2 = f2 + 1 := ⟨fuel2 - 1, by omega⟩
      have hff : f ≤ f2 := by omega
      rw [expand_succ] at h ⊢
      cases hm : List.lookup bm g with
      | none => rw [hm] at h; exact h
      | some ms =>
        cases ms with
        | nil => rw [hm] at h; exact h
        | cons m ms2 =>
          rw [hm] at h
          exact ih.2 (m :: ms2) l f2 hff h
    refine ⟨part1, ?_⟩
    intro ns
    induction ns with
    | nil => intro l fuel2 _ h; exact h
    | cons n ns ihns =>
      intro l fuel2 hle h
      rw [expandAll_cons] at h ⊢
      cases ha : ExpandBenchmarkName g (f + 1) n with
      | none => rw [ha] at h; cases h
      | some a =>
        rw [ha] at h
        cases hrest : expandAll (ExpandBenchmarkName g (f + 1)) ns with
        | none => rw [hrest] at h; cases h
        | some r =>
          rw [hrest] at h
          rw [part1 n a fuel2 hle ha, ihns r fuel2 hle hrest]
          exact h

/-- Every name yielded by the expansion either is no key of the mapping or
is a key bound to the empty member list (the `if expansion:` truthiness
guard): a key bound to a NON-empty list is always expanded away. -/
theorem expand_no_nonempty_group (g : Groups) : ∀ fuel : Nat,
    (∀ bm l, ExpandBenchmarkName g fuel bm = some l →
      ∀ x ∈ l, ∀ ms, List.lookup x g = some ms → ms = []) ∧
    (∀ ns l, expandAll (ExpandBenchmarkName g fuel) ns = some l →
      ∀ x ∈ l, ∀ ms, List.lookup x g = some ms → ms = []) := by
  intro fuel
  induction fuel with
  | zero =>
    constructor
    · intro bm l h
      rw [expand_zero] at h
      cases h
    · intro ns l h x hx ms hms
      cases ns with
      | nil =>
        cases h
        cases hx
      | cons n ns =>
        rw [expandAll_cons, expand_zero] at h
        cases h
  | succ f ih =>
    have part1 : ∀ bm l, ExpandBenchmarkName g (f + 1) bm = some l →
        ∀ x ∈ l, ∀ ms, List.lookup x g = some ms → ms = [] := by
      intro bm l h x hx ms hms
      rw [expand_succ] at h
      cases hm : List.lookup bm g with
      | none =>
        rw [hm] at h
        have hl : [bm] = l := Option.some.inj h
        rcases List.mem_singleton.mp (hl ▸ hx) with rfl
        rw [hm] at hms
        cases hms
      | some ms0 =>
        cases ms0 with
        | nil =>
          rw [hm] at h
          have hl : [bm] = l := Option.some.inj h
          rcases List.mem_singleton.mp (hl ▸ hx) with rfl
          rw [hm] at hms
          exact (Option.some.inj hms).symm
        | cons m ms2 =>
          rw [hm] at h
          exact ih.2 (m :: ms2) l h x hx ms hms
    refine ⟨part1, ?_⟩
    intro ns
    induction ns with
    | nil =>
      intro l h x hx ms hms
      cases h
      cases hx
    | cons n ns ihns =>
      intro l h x hx ms hms
      rw [expandAll_cons] at h
      cases ha : ExpandBenchmarkName g (f + 1) n with
      | none => rw [ha] at h; cases h
      | some a =>
        rw [ha] at h
        cases hrest : expandAll (ExpandBenchmarkName g (f + 1)) ns with
        | none => rw [hrest] at h; cases h
        | some r =>
          rw [hrest] at h
          have hl : a ++ r = l := Option.some.inj h
          rcases List.mem_append.mp (hl ▸ hx) with hxa | hxr
          · exact part1 n a ha x hxa ms hms
          · exact ihns r hrest x hxr ms hms

/-- Termination of the recursive expansion under an acyclicity certificate:
a rank function strictly decreasing from a group to each of its members. -/
theorem expand_terminates_of_rank (g : Groups) (rank : String → Nat)
    (hr : ∀ a l, List.lookup a g = some l → ∀ b ∈ l, rank b < rank a) :
    ∀ n bm, rank bm ≤ n →
      ∃ res, ExpandBenchmarkName g (rank bm + 1) bm = some res := by
  intro n
  induction n using Nat.strong_induction_on with
  | _ n IH =>
    intro bm hbm
    cases hm : List.lookup bm g with
    | none => exact ⟨[bm], by rw [expand_succ, hm]⟩
    | some ms =>
      cases ms with
      | nil => exact ⟨[bm], by rw [expand_succ, hm]⟩
      | cons m mrest =>
        have hmem : ∀ b ∈ m :: mrest, rank b < rank bm := hr bm _ hm
        have key : ∀ ns, (∀ b ∈ ns, rank b < rank bm) →
            ∃ res, expandAll (ExpandBenchmarkName g (rank bm)) ns = some res := by
          intro ns
          induction ns with
          | nil => intro; exact ⟨[], rfl⟩
          | cons x xs ihx =>
            intro hall
            have hx : rank x < rank bm := hall x (List.mem_cons_self x xs)
            have hxn : rank x < n := lt_of_lt_of_le hx hbm
            obtain ⟨a, ha⟩ := IH (rank x) hxn x le_rfl
            have ha2 : ExpandBenchmarkName g (rank bm) x = some a :=
              (expand_mono g (rank x + 1)).1 x a (rank bm) hx ha
            obtain ⟨r, hrr⟩ := ihx fun b hb => hall b (List.mem_cons_of_mem _ hb)
            exact ⟨a ++ r, by rw [expandAll_cons, ha2, hrr]; rfl⟩
        obtain ⟨res, hres⟩ := key (m :: mrest) hmem
        refine ⟨res, ?_⟩
        rw [expand_succ, hm]
        exact hres

/-- Characterization of a successful positive-token pass: membership in the
result is membership in the accumulator or in the legal part of some
token's expansion; duplicate-freeness is preserved; and every token's
expansion succeeded. -/
theorem ProcessPositives_ok (g : Groups) (legal : List String) (fuel : Nat) :
    ∀ (pos acc S : List String), ProcessPositives g legal fuel pos acc = .ok S →
      (∀ x, x ∈ S ↔ x ∈ acc ∨ ∃ p, p ∈ pos ∧ x ∈ expandSet g fuel p ∧ x ∈ legal) ∧
      (acc.Nodup → S.Nodup) := by
  intro pos
  induction pos with
  | nil =>
    intro acc S h
    cases h
    constructor
    · intro x; simp
    · exact id
  | cons name rest ih =>
    intro acc S h
    simp only [ProcessPositives] at h
    cases he : ExpandBenchmarkName g fuel name with
    | none => rw [he] at h; cases h
    | some ex =>
      rw [he] at h
      have hset : expandSet g fuel name = ex := by simp [expandSet, he]
      obtain ⟨hiff, hnd⟩ := ih _ S h
      constructor
      · intro x
        rw [hiff x, mem_addAll]
        simp only [List.mem_filter, decide_eq_true_eq, List.mem_cons]
        constructor
        · rintro ((hx | ⟨hxe, hxl⟩) | ⟨p, hp, hpe, hpl⟩)
          · exact Or.inl hx
          · exact Or.inr ⟨name, Or.inl rfl, hset ▸ hxe, hxl⟩
          · exact Or.inr ⟨p, Or.inr hp, hpe, hpl⟩
        · rintro (hx | ⟨p, rfl | hp, hpe, hpl⟩)
          · exact Or.inl (Or.inl hx)
          · exact Or.inl (Or.inr ⟨hset ▸ hpe, hpl⟩)
          · exact Or.inr ⟨p, hp, hpe, hpl⟩
      · intro hndacc
        exact hnd (nodup_addAll _ _ hndacc)

/-- The positive-token pass succeeds whenever every token's expansion
succeeds. -/
theorem ProcessPositives_succeeds (g : Groups) (legal : List String) (fuel : Nat) :
    ∀ (pos acc : List String), (∀ p ∈ pos, (ExpandBenchmarkName g fuel p).isSome) →
      ∃ S, ProcessPositives g legal fuel pos acc = .ok S := by
  intro pos
  induction pos with
  | nil => intro acc _; exact ⟨acc, rfl⟩
  | cons name rest ih =>
    intro acc hall
    obtain ⟨ex, he⟩ := Option.isSome_iff_exists.mp
      (hall name (List.mem_cons_self name rest))
    simp only [ProcessPositives]
    rw [he]
    exact ih _ fun p hp => hall p (List.mem_cons_of_mem _ hp)

/-- Characterization of a successful negative-token pass: membership in the
result is membership in the accumulator minus the legal excluded names;
duplicate-freeness is preserved; and no processed token was a group key. -/
theorem ProcessNegatives_ok (g : Groups) (legal : List String) :
    ∀ (neg acc S : List String), acc.Nodup →
      ProcessNegatives g legal neg acc = .ok S →
      (∀ x, x ∈ S ↔ x ∈ acc ∧ ¬(x ∈ neg ∧ x ∈ legal)) ∧ S.Nodup ∧
      ∀ b ∈ neg, List.lookup b g = none := by
  intro neg
  induction neg with
  | nil =>
    intro acc S hnd h
    cases h
    refine ⟨fun x => by simp, hnd, by simp⟩
  | cons bm rest ih =>
    intro acc S hnd h
    simp only [ProcessNegatives] at h
    by_cases hg : (List.lookup bm g).isSome
    · rw [if_pos hg] at h; cases h
    · rw [if_neg hg] at h
      have hgn : List.lookup bm g = none := Option.not_isSome_iff_eq_none.mp hg
      by_cases hl : bm ∈ legal
      · rw [if_pos hl] at h
        by_cases hin : bm ∈ acc
        · rw [if_pos hin] at h
          obtain ⟨hiff, hndS, hrest⟩ := ih _ S (hnd.erase bm) h
          refine ⟨?_, hndS, ?_⟩
          · intro x
            rw [hiff x, List.Nodup.mem_erase_iff hnd]
            simp only [List.mem_cons]
            constructor
            · rintro ⟨⟨hne, hxacc⟩, hnot⟩
              refine ⟨hxacc, ?_⟩
              rintro ⟨rfl | hxr, hxl⟩
              · exact hne rfl
              · exact hnot ⟨hxr, hxl⟩
            · rintro ⟨hxacc, hnot⟩
              by_cases hxbm : x = bm
              · exact absurd ⟨Or.inl hxbm, hxbm ▸ hl⟩ hnot
              · exact ⟨⟨hxbm, hxacc⟩, fun hc => hnot ⟨Or.inr hc.1, hc.2⟩⟩
          · intro b hb
            rcases List.mem_cons.mp hb with rfl | hb
            · exact hgn
            · exact hrest b hb
        · rw [if_neg hin] at h; cases h
      · rw [if_neg hl] at h
        obtain ⟨hiff, hndS, hrest⟩ := ih _ S hnd h
        refine ⟨?_, hndS, ?_⟩
        · intro x
          rw [hiff x]
          simp only [List.mem_cons]
          constructor
          · rintro ⟨hxacc, hnot⟩
            refine ⟨hxacc, ?_⟩
            rintro ⟨rfl | hxr, hxl⟩
            · exact hl hxl
            · exact hnot ⟨hxr, hxl⟩
          · rintro ⟨hxacc, hnot⟩
            exact ⟨hxacc, fun hc => hnot ⟨Or.inr hc.1, hc.2⟩⟩
        · intro b hb
          rcases List.mem_cons.mp hb with rfl | hb
          · exact hgn
          · exact hrest b hb

/-- The negative-token pass succeeds when no token is a group key and every
legal token is present in the accumulator. -/
theorem ProcessNegatives_succeeds (g : Groups) (legal : List String) :
    ∀ (neg acc : List String), neg.Nodup →
      (∀ b ∈ neg, List.lookup b g = none) →
      (∀ b ∈ neg, b ∈ legal → b ∈ acc) →
      ∃ S, ProcessNegatives g legal neg acc = .ok S := by
  intro neg
  induction neg with
  | nil => intro acc _ _ _; exact ⟨acc, rfl⟩
  | cons bm rest ih =>
    intro acc hnd hng hpr
    have hgn := hng bm (List.mem_cons_self bm rest)
    have hbmrest : bm ∉ rest := (List.nodup_cons.mp hnd).1
    simp only [ProcessNegatives]
    rw [if_neg (by simp [hgn])]
    by_cases hl : bm ∈ legal
    · rw [if_pos hl, if_pos (hpr bm (List.mem_cons_self bm rest) hl)]
      refine ih (acc.erase bm) hnd.of_cons
        (fun b hb => hng b (List.mem_cons_of_mem _ hb)) ?_
      intro b hb hbl
      have hneq : b ≠ bm := fun e => hbmrest (e ▸ hb)
      exact (List.mem_erase_of_ne hneq).mpr
        (hpr b (List.mem_cons_of_mem _ hb) hbl)
    · rw [if_neg hl]
      exact ih acc hnd.of_cons (fun b hb => hng b (List.mem_cons_of_mem _ hb))
        (fun b hb => hpr b (List.mem_cons_of_mem _ hb))

/-- When some negative token is a group key and no earlier token faults,
the negative-token pass fails precisely with `unsupportedExclusion`. -/
theorem ProcessNegatives_group_fault (g : Groups) (legal : List String) :
    ∀ (neg acc : List String), neg.Nodup →
      (∃ b ∈ neg, (List.lookup b g).isSome) →
      (∀ b ∈ neg, List.lookup b g = none → b ∈ legal → b ∈ acc) →
      ∃ g0, g0 ∈ neg ∧ (List.lookup g0 g).isSome ∧
        ProcessNegatives g legal neg acc = .error (.unsupportedExclusion g0) := by
  intro neg
  induction neg with
  | nil =>
    intro acc _ hex _
    simp at hex
  | cons bm rest ih =>
    intro acc hnd hex hpr
    have hbmrest : bm ∉ rest := (List.nodup_cons.mp hnd).1
    by_cases hg : (List.lookup bm g).isSome
    · refine ⟨bm, List.mem_cons_self bm rest, hg, ?_⟩
      simp only [ProcessNegatives]
      rw [if_pos hg]
    · have hgn : List.lookup bm g = none := Option.not_isSome_iff_eq_none.mp hg
      have hex2 : ∃ b ∈ rest, (List.lookup b g).isSome := by
        rcases hex with ⟨b, hb, hbs⟩
        rcases List.mem_cons.mp hb with rfl | hb
        · exact absurd hbs hg
        · exact ⟨b, hb, hbs⟩
      simp only [ProcessNegatives]
      rw [if_neg (by simp [hgn])]
      by_cases hl : bm ∈ legal
      · rw [if_pos hl, if_pos (hpr bm (List.mem_cons_self bm rest) hgn hl)]
        obtain ⟨g0, hg0, hg0s, heq⟩ := ih (acc.erase bm) hnd.of_cons hex2
          (by
            intro b hb hbn hbl
            have hneq : b ≠ bm := fun e => hbmrest (e ▸ hb)
            exact (List.mem_erase_of_ne hneq).mpr
              (hpr b (List.mem_cons_of_mem _ hb) hbn hbl))
        exact ⟨g0, List.mem_cons_of_mem _ hg0, hg0s, heq⟩
      · rw [if_neg hl]
        obtain ⟨g0, hg0, hg0s, heq⟩ := ih acc hnd.of_cons hex2
          (fun b hb => hpr b (List.mem_cons_of_mem _ hb))
        exact ⟨g0, List.mem_cons_of_mem _ hg0, hg0s, heq⟩

/-- Unfolding of `ParseBenchmarksOption` once the `all` lookup is known. -/
theorem ParseBenchmarksOption_eq (opt : String) (g : Groups) (fuel : Nat)
    (legal : List String) (hall : List.lookup "all" g = some legal) :
    ParseBenchmarksOption opt g fuel =
      match (if positivesOf opt = [] then
               (ExpandBenchmarkName g fuel "default").map (addAll [])
             else some []) with
      | none => .error .noExpansion
      | some init =>
        match ProcessPositives g legal fuel (positivesOf opt) init with
        | .error e => .error e
        | .ok sr => ProcessNegatives g legal (negativesOf opt) sr := by
  unfold ParseBenchmarksOption
  rw [hall]

/-- Inversion of a successful parse: the `all` group exists. -/
theorem ParseBenchmarksOption_ok_all (opt : String) (g : Groups) (fuel : Nat)
    (S : List String) (h : ParseBenchmarksOption opt g fuel = .ok S) :
    ∃ legal, List.lookup "all" g = some legal := by
  unfold ParseBenchmarksOption at h
  cases hall : List.lookup "all" g with
  | none => rw [hall] at h; cases h
  | some legal => exact ⟨legal, rfl⟩

/-- Full characterization of a successful `ParseBenchmarksOption`: the
result is duplicate-free and contains exactly the included names (default
expansion unrestricted, or legal parts of the positive expansions) that are
not legal excluded names. -/
theorem ParseBenchmarksOption_ok_iff (opt : String) (g : Groups) (fuel : Nat)
    (legal S : List String) (hall : List.lookup "all" g = some legal)
    (h : ParseBenchmarksOption opt g fuel = .ok S) :
    S.Nodup ∧ ∀ x, x ∈ S ↔
      claimIncluded g fuel legal (positivesOf opt) x ∧
      ¬(x ∈ negativesOf opt ∧ x ∈ legal) := by
  rw [ParseBenchmarksOption_eq opt g fuel legal hall] at h
  by_cases hpos : positivesOf opt = []
  · rw [if_pos hpos] at h
    cases hd : ExpandBenchmarkName g fuel "default" with
    | none => rw [hd] at h; cases h
    | some d =>
      rw [hd, hpos] at h
      have h2 : ProcessNegatives g legal (negativesOf opt) (addAll [] d) = .ok S := h
      obtain ⟨hiff, hndS, _⟩ := ProcessNegatives_ok g legal (negativesOf opt)
        (addAll [] d) S (nodup_addAll d [] List.nodup_nil) h2
      refine ⟨hndS, fun x => ?_⟩
      rw [hiff x, mem_addAll]
      simp only [List.not_mem_nil, false_or]
      unfold claimIncluded
      rw [hpos]
      simp [expandSet, hd]
  · rw [if_neg hpos] at h
    have h2 : (match ProcessPositives g legal fuel (positivesOf opt) [] with
        | .error e => (.error e : Except ParseError (List String))
        | .ok sr => ProcessNegatives g legal (negativesOf opt) sr) = .ok S := h
    cases hp : ProcessPositives g legal fuel (positivesOf opt) [] with
    | error e => rw [hp] at h2; cases h2
    | ok sr =>
      rw [hp] at h2
      have h3 : ProcessNegatives g legal (negativesOf opt) sr = .ok S := h2
      obtain ⟨hiffP, hndP⟩ := ProcessPositives_ok g legal fuel _ [] sr hp
      obtain ⟨hiffN, hndS, _⟩ := ProcessNegatives_ok g legal (negativesOf opt)
        sr S (hndP List.nodup_nil) h3
      refine ⟨hndS, fun x => ?_⟩
      rw [hiffN x, hiffP x]
      simp only [List.not_mem_nil, false_or]
      unfold claimIncluded
      constructor
      · rintro ⟨⟨p, hp1, hp2, hp3⟩, hn⟩
        exact ⟨Or.inr ⟨hpos, p, hp1, hp2, hp3⟩, hn⟩
      · rintro ⟨hci | hci, hn⟩
        · exact absurd hci.1 hpos
        · exact ⟨hci.2, hn⟩

/-- `ParseBenchmarksOption` succeeds when the needed expansions succeed, no
exclusion token is a group key, and every legal exclusion token is actually
included. -/
theorem ParseBenchmarksOption_succeeds (opt : String) (g : Groups) (fuel : Nat)
    (legal : List String) (hall : List.lookup "all" g = some legal)
    (hdef : positivesOf opt = [] → (ExpandBenchmarkName g fuel "default").isSome)
    (hpos : ∀ p ∈ positivesOf opt, (ExpandBenchmarkName g fuel p).isSome)
    (hng : ∀ b ∈ negativesOf opt, List.lookup b g = none)
    (hpr : ∀ b ∈ negativesOf opt, b ∈ legal →
      claimIncluded g fuel legal (positivesOf opt) b) :
    ∃ S, ParseBenchmarksOption opt g fuel = .ok S := by
  rw [ParseBenchmarksOption_eq opt g fuel legal hall]
  by_cases hp0 : positivesOf opt = []
  · rw [if_pos hp0]
    obtain ⟨d, hd⟩ := Option.isSome_iff_exists.mp (hdef hp0)
    rw [hd, hp0]
    obtain ⟨S, hS⟩ := ProcessNegatives_succeeds g legal (negativesOf opt)
      (addAll [] d) (negativesOf_nodup opt) hng
      (by
        intro b hb hbl
        have hci := hpr b hb hbl
        unfold claimIncluded at hci
        rcases hci with ⟨_, hbd⟩ | ⟨hne, _⟩
        · rw [mem_addAll]
          right
          simpa [expandSet, hd] using hbd
        · exact absurd hp0 hne)
    exact ⟨S, hS⟩
  · rw [if_neg hp0]
    obtain ⟨sr, hsr⟩ := ProcessPositives_succeeds g legal fuel (positivesOf opt)
      [] hpos
    obtain ⟨hiffP, _⟩ := ProcessPositives_ok g legal fuel (positivesOf opt) [] sr hsr
    obtain ⟨S, hS⟩ := ProcessNegatives_succeeds g legal (negativesOf opt) sr
      (negativesOf_nodup opt) hng
      (by
        intro b hb hbl
        have hci := hpr b hb hbl
        unfold claimIncluded at hci
        rcases hci with ⟨he, _⟩ | ⟨_, p, hp1, hp2, hp3⟩
        · exact absurd he hp0
        · exact (hiffP b).mpr (Or.inr ⟨p, hp1, hp2, hp3⟩))
    refine ⟨S, ?_⟩
    show (match ProcessPositives g legal fuel (positivesOf opt) [] with
        | .error e => (.error e : Except ParseError (List String))
        | .ok sr2 => ProcessNegatives g legal (negativesOf opt) sr2) = .ok S
    rw [hsr]
    exact hS

/-- Membership characterization and structural facts of a successful
`FilterBenchmarks`: the result is the sublist of names passing the `keepB`
interval test. -/
theorem FilterBenchmarks_ok (funcs : Funcs) (basever : String) :
    ∀ (bms res : List String), FilterBenchmarks bms funcs basever = .ok res →
      (∀ x, x ∈ res ↔ x ∈ bms ∧ keepB funcs basever x = true) ∧ res.Sublist bms := by
  intro bms
  induction bms with
  | nil =>
    intro res h
    cases h
    exact ⟨fun x => by simp, List.Sublist.refl []⟩
  | cons bm rest ih =>
    intro res h
    simp only [FilterBenchmarks] at h
    cases hr : rangeOf funcs bm with
    | none => rw [hr] at h; cases h
    | some mm =>
      obtain ⟨minver, maxver⟩ := mm
      rw [hr] at h
      cases hrest : FilterBenchmarks rest funcs basever with
      | error e => rw [hrest] at h; cases h
      | ok res2 =>
        rw [hrest] at h
        have h3 : (if (pyStrLe minver basever && pyStrLe basever maxver) = true
            then bm :: res2 else res2) = res := Except.ok.inj h
        obtain ⟨hiff, hsub⟩ := ih res2 hrest
        have hkeep : keepB funcs basever bm =
            (pyStrLe minver basever && pyStrLe basever maxver) := by
          simp [keepB, hr]
        by_cases hc : (pyStrLe minver basever && pyStrLe basever maxver) = true
        · rw [if_pos hc] at h3
          subst h3
          constructor
          · intro x
            simp only [List.mem_cons]
            constructor
            · rintro (rfl | hx)
              · exact ⟨Or.inl rfl, hkeep ▸ hc⟩
              · obtain ⟨hx1, hx2⟩ := (hiff x).mp hx
                exact ⟨Or.inr hx1, hx2⟩
            · rintro ⟨rfl | hx, hk⟩
              · exact Or.inl rfl
              · exact Or.inr ((hiff x).mpr ⟨hx, hk⟩)
          · exact hsub.cons₂ bm
        · rw [if_neg hc] at h3
          subst h3
          constructor
          · intro x
            constructor
            · intro hx
              obtain ⟨hx1, hx2⟩ := (hiff x).mp hx
              exact ⟨List.mem_cons_of_mem _ hx1, hx2⟩
            · rintro ⟨hx, hk⟩
              rcases List.mem_cons.mp hx with rfl | hx
              · exact absurd (hkeep ▸ hk) hc
              · exact (hiff x).mpr ⟨hx, hk⟩
          · exact hsub.cons bm

/-- The measurement loop faults with the attached stderr at the first run
with a non-zero exit code. -/
theorem MeasureLoop_fail (runs : Nat → ChildRun) :
    ∀ (remaining i : Nat) (ts : List Nat) (m : Nat), i ≤ m → m < i + remaining →
      (∀ j, i ≤ j → j < m → (runs j).returncode = 0 ∧ (runs j).cpuDelta ≠ 0) →
      (runs m).returncode ≠ 0 →
      MeasureLoop runs i remaining ts =
        .error (.runtimeError ("Benchmark died: " ++ (runs m).stderr)) := by
  intro remaining
  induction remaining with
  | zero => intro i ts m h1 h2 _ _; omega
  | succ r ih =>
    intro i ts m h1 h2 hpre hfail
    simp only [MeasureLoop]
    by_cases him : i = m
    · subst him
      rw [if_pos hfail]
    · have hlt : i < m := lt_of_le_of_ne h1 him
      obtain ⟨h0, hd⟩ := hpre i le_rfl hlt
      rw [if_neg (by simp [h0]), if_neg hd]
      exact ih (i + 1) (ts ++ [(runs i).cpuDelta]) m (by omega) (by omega)
        (fun j hj1 hj2 => hpre j (by omega) hj2) hfail

/-- The measurement loop faults with the assertion failure at the first run
with a zero CPU-time delta. -/
theorem MeasureLoop_zero_fault (runs : Nat → ChildRun) :
    ∀ (remaining i : Nat) (ts : List Nat) (m : Nat), i ≤ m → m < i + remaining →
      (∀ j, i ≤ j → j < m → (runs j).returncode = 0 ∧ (runs j).cpuDelta ≠ 0) →
      (runs m).returncode = 0 → (runs m).cpuDelta = 0 →
      MeasureLoop runs i remaining ts = .error .assertionFailed := by
  intro remaining
  induction remaining with
  | zero => intro i ts m h1 h2 _ _ _; omega
  | succ r ih =>
    intro i ts m h1 h2 hpre h0m hdm
    simp only [MeasureLoop]
    by_cases him : i = m
    · subst him
      rw [if_neg (by simp [h0m]), if_pos hdm]
    · have hlt : i < m := lt_of_le_of_ne h1 him
      obtain ⟨h0, hd⟩ := hpre i le_rfl hlt
      rw [if_neg (by simp [h0]), if_neg hd]
      exact ih (i + 1) (ts ++ [(runs i).cpuDelta]) m (by omega) (by omega)
        (fun j hj1 hj2 => hpre j (by omega) hj2) h0m hdm

/-- Every sample in a successfully returned sample list is strictly
positive, given the accumulator's samples are. -/
theorem MeasureLoop_ok_pos (runs : Nat → ChildRun) :
    ∀ (remaining i : Nat) (ts S : List Nat),
      MeasureLoop runs i remaining ts = .ok S →
      (∀ t ∈ ts, 0 < t) → ∀ t ∈ S, 0 < t := by
  intro remaining
  induction remaining with
  | zero =>
    intro i ts S h hts
    cases h
    exact hts
  | succ r ih =>
    intro i ts S h hts
    simp only [MeasureLoop] at h
    by_cases hc1 : (runs i).returncode ≠ 0
    · rw [if_pos hc1] at h; cases h
    · rw [if_neg hc1] at h
      by_cases hc2 : (runs i).cpuDelta = 0
      · rw [if_pos hc2] at h; cases h
      · rw [if_neg hc2] at h
        refine ih (i + 1) (ts ++ [(runs i).cpuDelta]) S h ?_
        intro t ht
        rcases List.mem_append.mp ht with ht | ht
        · exact hts t ht
        · rcases List.mem_singleton.mp ht with rfl
          exact Nat.pos_of_ne_zero hc2

/-- Claim C5, counterexample to the claim as stated: a command whose
PRIMING run exits non-zero aborts the measurement, but with the bare
`RuntimeError("Benchmark died")` of `CallAndCaptureOutput` — the captured
stderr text ("boom") is NOT attached to the raised error, contradicting
"raising an error carrying the captured standard-error text". -/
theorem C5_counterexample_priming :
    MeasureCommand "bm" (fun _ => ⟨1, "boom", 5⟩) 1 =
      .error (.runtimeError "Benchmark died") ∧
    ((fun _ => (⟨1, "boom", 5⟩ : ChildRun)) 0).returncode ≠ 0 ∧
    "Benchmark died" ≠ "Benchmark died: " ++ "boom" := by
  exact ⟨rfl, by decide, by decide⟩

/-- Claim C5 (amended): a non-zero exit code aborts the whole measurement
with no retry, no skip and no returned collection; the raised error carries
the captured stderr text (`"Benchmark died: " ++ stderr`) when the failing
run is a measurement iteration, while a priming-run failure raises
`"Benchmark died"` without the text. -/
theorem C5_nonzero_exit_faults (name : String) (runs : Nat → ChildRun)
    (iterations : Nat) :
    ((runs 0).returncode ≠ 0 →
      MeasureCommand name runs iterations = .error (.runtimeError "Benchmark died")) ∧
    (∀ m, 1 ≤ m → m ≤ iterations → (runs 0).returncode = 0 →
      (∀ j, 1 ≤ j → j < m → (runs j).returncode = 0 ∧ (runs j).cpuDelta ≠ 0) →
      (runs m).returncode ≠ 0 →
      MeasureCommand name runs iterations =
        .error (.runtimeError ("Benchmark died: " ++ (runs m).stderr))) := by
  constructor
  · intro h0
    simp only [MeasureCommand]
    rw [if_pos h0]
  · intro m hm1 hm2 h0 hpre hfail
    simp only [MeasureCommand]
    rw [if_neg (by simp [h0]),
      MeasureLoop_fail runs iterations 1 [] m hm1 (by omega) hpre hfail]

/-- Claim C5 witness: a concrete trace whose second measurement iteration
exits with code 2 and stderr "bad". -/
theorem C5_witness :
    MeasureCommand "bm" (fun i => if i = 2 then ⟨2, "bad", 3⟩ else ⟨0, "", 3⟩) 3 =
      .error (.runtimeError ("Benchmark died: " ++
        ((fun i => if i = 2 then (⟨2, "bad", 3⟩ : ChildRun) else ⟨0, "", 3⟩) 2).stderr)) := by
  refine (C5_nonzero_exit_faults "bm" _ 3).2 2 (by omega) (by omega) (by decide)
    ?_ (by decide)
  intro j hj1 hj2
  have hj : j = 1 := by omega
  subst hj
  exact ⟨by decide, by decide⟩

/-- Claim C6: a zero CPU-time delta in a measurement iteration faults with
the assertion failure before the sample is appended, so a successfully
returned collection only ever contains strictly positive samples. -/
theorem C6_zero_delta_faults (name : String) (runs : Nat → ChildRun)
    (iterations : Nat) :
    (∀ b, MeasureCommand name runs iterations = .ok b → ∀ t ∈ b.times, 0 < t) ∧
    (∀ m, 1 ≤ m → m ≤ iterations → (runs 0).returncode = 0 →
      (∀ j, 1 ≤ j → j < m → (runs j).returncode = 0 ∧ (runs j).cpuDelta ≠ 0) →
      (runs m).returncode = 0 → (runs m).cpuDelta = 0 →
      MeasureCommand name runs iterations = .error .assertionFailed) := by
  constructor
  · intro b hb t ht
    simp only [MeasureCommand] at hb
    by_cases h0 : (runs 0).returncode ≠ 0
    · rw [if_pos h0] at hb; cases hb
    · rw [if_neg h0] at hb
      cases hl : MeasureLoop runs 1 iterations [] with
      | error e => rw [hl] at hb; cases hb
      | ok times =>
        rw [hl] at hb
        have hbt : b = ⟨times, name⟩ := (Except.ok.inj hb).symm
        subst hbt
        exact MeasureLoop_ok_pos runs iterations 1 [] times hl (by simp) t ht
  · intro m hm1 hm2 h0 hpre hrc hdz
    simp only [MeasureCommand]
    rw [if_neg (by simp [h0]),
      MeasureLoop_zero_fault runs iterations 1 [] m hm1 (by omega) hpre hrc hdz]

/-- Claim C6 witness: a trace with all-positive deltas yields only positive
samples, and a trace whose second iteration has a zero delta faults. -/
theorem C6_witness :
    (∀ t ∈ (Bench.times ⟨[4, 4], "bm"⟩), 0 < t) ∧
    MeasureCommand "bm" (fun i => if i = 2 then ⟨0, "", 0⟩ else ⟨0, "", 4⟩) 2 =
      .error .assertionFailed := by
  constructor
  · exact (C6_zero_delta_faults "bm" (fun _ => ⟨0, "", 4⟩) 2).1 ⟨[4, 4], "bm"⟩ rfl
  · refine (C6_zero_delta_faults "bm" _ 2).2 2 (by omega) (by omega) (by decide)
      ?_ (by decide) (by decide)
    intro j hj1 hj2
    have hj : j = 1 := by omega
    subst hj
    exact ⟨by decide, by decide⟩

/-- Claim C4, counterexample to the claim as stated: with a group defined
with an EMPTY member list, the expansion yields the group name itself (the
`if expansion:` truthiness guard treats an empty list like a leaf), so the
output is not free of group names. -/
theorem C4_counterexample_empty_group :
    ExpandBenchmarkName [("g", [])] 2 "g" = some ["g"] ∧
    List.lookup "g" [("g", ([] : List String))] = some [] := ⟨rfl, rfl⟩

/-- Claim C4 (amended): every name yielded by the recursive expansion is
either no group key of the mapping or a group key bound to an EMPTY member
list; in particular, when every group of the mapping has a non-empty member
list, the expansion only yields leaves. -/
theorem C4_expansion_yields_no_nonempty_group (g : Groups) (fuel : Nat)
    (bm : String) (l : List String)
    (h : ExpandBenchmarkName g fuel bm = some l) :
    ∀ x ∈ l, ∀ ms, List.lookup x g = some ms → ms = [] :=
  (expand_no_nonempty_group g fuel).1 bm l h

/-- Claim C4 witness: in the catalogue where "grp" expands to the empty
group "e", the yielded name "e" is indeed bound to the empty member list. -/
theorem C4_witness :
    ExpandBenchmarkName [("grp", ["e"]), ("e", [])] 2 "grp" = some ["e"] ∧
    ([] : List String) = [] :=
  ⟨rfl, C4_expansion_yields_no_nonempty_group [("grp", ["e"]), ("e", [])] 2
    "grp" ["e"] rfl "e" (by decide) [] rfl⟩

/-- Claim C9: under an acyclicity certificate — a rank function strictly
decreasing from every group name to each of its members, which exists
exactly when no name is reachable from itself — the recursive expansion
terminates on every requested name with a finite result list, even though
the code carries no visited-name set. -/
theorem C9_expansion_terminates (g : Groups) (rank : String → Nat)
    (hr : ∀ a l, List.lookup a g = some l → ∀ b ∈ l, rank b < rank a)
    (bm : String) :
    ∃ res, ExpandBenchmarkName g (rank bm + 1) bm = some res :=
  expand_terminates_of_rank g rank hr (rank bm) bm le_rfl

/-- Claim C9 witness: a two-leaf acyclic catalogue with an explicit rank. -/
theorem C9_witness :
    ∃ res, ExpandBenchmarkName [("default", ["a", "b"])]
      ((fun s => if s = "default" then 1 else 0) "default" + 1) "default" =
      some res := by
  refine C9_expansion_terminates [("default", ["a", "b"])]
    (fun s => if s = "default" then 1 else 0) ?_ "default"
  intro a l h b hb
  by_cases ha : a = "default"
  · subst ha
    have h2 : (some ["a", "b"] : Option (List String)) = some l := h
    have hl : ["a", "b"] = l := Option.some.inj h2
    subst hl
    simp only [List.mem_cons, List.mem_singleton] at hb
    rcases hb with rfl | rfl | hb
    · decide
    · decide
    · cases hb
  · exfalso
    have hf : (a == "default") = false := beq_eq_false_iff_ne.mpr ha
    simp only [List.lookup, hf] at h
    cases h

/-- Claim C1, counterexample to the claim as stated: the benchmark "b" with
interval ["2.9", "4.0"] and target version "2.10" satisfies the
numeric-segment interval check the claim demands ("2.9" <= "2.10" <= "4.0"
numerically), yet `FilterBenchmarks` discards it, because the source
compares the version tokens as plain Python strings and "2.10" < "2.9" in
string order. -/
theorem C1_counterexample_string_order :
    FilterBenchmarks ["b"] [("b", some ("2.9", "4.0"))] "2.10" = .ok [] ∧
    specVersionLe "2.9" "2.10" = true ∧ specVersionLe "2.10" "4.0" = true ∧
    pyStrLe "2.9" "2.10" = false := ⟨rfl, rfl, rfl, rfl⟩

/-- Claim C1 (amended): `FilterBenchmarks` retains a benchmark iff
`minver <= v <= maxver` under PLAIN STRING (code-point lexicographic)
ordering of the version tokens, not numeric-segment ordering. -/
theorem C1_filter_retains_iff_string_order (benchmarks : List String)
    (funcs : Funcs) (basever bm minver maxver : String) (res : List String)
    (hr : rangeOf funcs bm = some (minver, maxver))
    (hok : FilterBenchmarks benchmarks funcs basever = .ok res) :
    bm ∈ res ↔
      bm ∈ benchmarks ∧ pyStrLe minver basever = true ∧
      pyStrLe basever maxver = true := by
  obtain ⟨hiff, _⟩ := FilterBenchmarks_ok funcs basever benchmarks res hok
  rw [hiff bm]
  have hk : keepB funcs basever bm =
      (pyStrLe minver basever && pyStrLe basever maxver) := by
    simp [keepB, hr]
  rw [hk]
  simp [Bool.and_eq_true, and_assoc]

/-- Claim C1 witness: a benchmark with interval ["2.0", "9.0"] is retained
at target version "2.7". -/
theorem C1_witness :
    "b" ∈ (["b"] : List String) ∧ pyStrLe "2.0" "2.7" = true ∧
      pyStrLe "2.7" "9.0" = true :=
  (C1_filter_retains_iff_string_order ["b"] [("b", some ("2.0", "9.0"))] "2.7"
    "b" "2.0" "9.0" ["b"] rfl rfl).mp (by decide)

/-- Every name in the computed `2n3` list is a key of the function table. -/
theorem Calculate2n3_subset_keys :
    ∀ (funcs : Funcs) (dep : List String) (x : String),
      x ∈ Calculate2n3 funcs dep → x ∈ funcs.map Prod.fst := by
  intro funcs
  induction funcs with
  | nil => intro dep x hx; simp [Calculate2n3] at hx
  | cons entry rest ih =>
    obtain ⟨nm, rng⟩ := entry
    intro dep x hx
    simp only [Calculate2n3] at hx
    by_cases hdep : nm ∈ dep
    · rw [if_pos hdep] at hx
      exact List.mem_cons_of_mem _ (ih dep x hx)
    · rw [if_neg hdep] at hx
      by_cases hcond : (pyStrLe (rng.getD ("2.0", "4.0")).1 "2.7" &&
          pyStrLe "3.2" (rng.getD ("2.0", "4.0")).2) = true
      · rw [if_pos hcond] at hx
        rcases List.mem_cons.mp hx with rfl | hx
        · exact List.mem_cons_self _ _
        · exact List.mem_cons_of_mem _ (ih dep x hx)
      · rw [if_neg hcond] at hx
        exact List.mem_cons_of_mem _ (ih dep x hx)

/-- Claim C3, counterexample to the claim as stated: "iterative_count" has
the interval ["2.0", "9.0"], which spans the ["2.7", "3.2"] boundary pair,
yet it is NOT in the computed `2n3` group, because the module-level loop
skips every benchmark in the deprecated set — membership is not an iff over
the interval alone. -/
theorem C3_counterexample_deprecated :
    List.lookup "iterative_count" BENCH_FUNCS = some (some ("2.0", "9.0")) ∧
    pyStrLe "2.0" "2.7" = true ∧ pyStrLe "3.2" "9.0" = true ∧
    List.lookup "2n3" BENCH_GROUPS = some (Calculate2n3 BENCH_FUNCS deprecatedGroup) ∧
    "iterative_count" ∉ Calculate2n3 BENCH_FUNCS deprecatedGroup :=
  ⟨rfl, rfl, rfl, rfl, by decide⟩

/-- Claim C3 (amended): for a function table with duplicate-free keys, a
name belongs to the computed `2n3` group iff it is a key of the table, is
NOT in the deprecated set, and its interval (with the `('2.0', '4.0')`
fallback) satisfies `minver <= "2.7"` and `"3.2" <= maxver` under Python
string comparison. -/
theorem C3_group2n3_iff (funcs : Funcs) (dep : List String) (bm : String)
    (hnd : (funcs.map Prod.fst).Nodup) :
    bm ∈ Calculate2n3 funcs dep ↔
      ∃ rng, List.lookup bm funcs = some rng ∧ bm ∉ dep ∧
        pyStrLe (rng.getD ("2.0", "4.0")).1 "2.7" = true ∧
        pyStrLe "3.2" (rng.getD ("2.0", "4.0")).2 = true := by
  induction funcs with
  | nil => simp [Calculate2n3]
  | cons entry rest ih =>
    obtain ⟨nm, rng⟩ := entry
    simp only [List.map_cons, List.nodup_cons] at hnd
    obtain ⟨hnm, hndr⟩ := hnd
    simp only [Calculate2n3]
    by_cases hbm : bm = nm
    · subst hbm
      have hnotmem : bm ∉ Calculate2n3 rest dep := fun hc =>
        hnm (Calculate2n3_subset_keys rest dep bm hc)
      have hbeq : (bm == bm) = true := beq_self_eq_true bm
      by_cases hdep : bm ∈ dep
      · rw [if_pos hdep]
        constructor
        · intro hc; exact absurd hc hnotmem
        · rintro ⟨r2, _, hnd2, _⟩
          exact absurd hdep hnd2
      · rw [if_neg hdep]
        by_cases hcond : (pyStrLe (rng.getD ("2.0", "4.0")).1 "2.7" &&
            pyStrLe "3.2" (rng.getD ("2.0", "4.0")).2) = true
        · rw [if_pos hcond]
          have hc2 : pyStrLe (rng.getD ("2.0", "4.0")).1 "2.7" = true ∧
              pyStrLe "3.2" (rng.getD ("2.0", "4.0")).2 = true := by
            simpa using hcond
          simp only [List.mem_cons]
          constructor
          · intro _
            refine ⟨rng, ?_, hdep, hc2.1, hc2.2⟩
            simp only [List.lookup, hbeq]
          · intro _; simp
        · rw [if_neg hcond]
          constructor
          · intro hc; exact absurd hc hnotmem
          · rintro ⟨r2, hr2, _, hc1, hc2⟩
            simp only [List.lookup, hbeq] at hr2
            have hrr : rng = r2 := Option.some.inj hr2
            subst hrr
            exact (hcond (by simp [hc1, hc2])).elim
    · have hbeq : (bm == nm) = false := beq_eq_false_iff_ne.mpr hbm
      have hlk : ∀ r2 : Option (String × String),
          (List.lookup bm ((nm, rng) :: rest) = some r2) ↔
          (List.lookup bm rest = some r2) := by
        intro r2
        simp only [List.lookup, hbeq]
      by_cases hdep : nm ∈ dep
      · rw [if_pos hdep]
        rw [ih hndr]
        constructor
        · rintro ⟨r2, hr2, h3, h4, h5⟩
          exact ⟨r2, (hlk r2).mpr hr2, h3, h4, h5⟩
        · rintro ⟨r2, hr2, h3, h4, h5⟩
          exact ⟨r2, (hlk r2).mp hr2, h3, h4, h5⟩
      · rw [if_neg hdep]
        by_cases hcond : (pyStrLe (rng.getD ("2.0", "4.0")).1 "2.7" &&
            pyStrLe "3.2" (rng.getD ("2.0", "4.0")).2) = true
        · rw [if_pos hcond]
          simp only [List.mem_cons, hbm, false_or]
          rw [ih hndr]
          constructor
          · rintro ⟨r2, hr2, h3, h4, h5⟩
            exact ⟨r2, (hlk r2).mpr hr2, h3, h4, h5⟩
          · rintro ⟨r2, hr2, h3, h4, h5⟩
            exact ⟨r2, (hlk r2).mp hr2, h3, h4, h5⟩
        · rw [if_neg hcond]
          rw [ih hndr]
          constructor
          · rintro ⟨r2, hr2, h3, h4, h5⟩
            exact ⟨r2, (hlk r2).mpr hr2, h3, h4, h5⟩
          · rintro ⟨r2, hr2, h3, h4, h5⟩
            exact ⟨r2, (hlk r2).mp hr2, h3, h4, h5⟩

/-- Claim C3 witness: "chameleon" (interval ["2.7", "9.0"], not deprecated)
is in the `2n3` group of the concrete catalogue. -/
theorem C3_witness :
    "chameleon" ∈ Calculate2n3 BENCH_FUNCS deprecatedGroup :=
  (C3_group2n3_iff BENCH_FUNCS deprecatedGroup "chameleon" (by decide)).mpr
    ⟨some ("2.7", "9.0"), by decide, by decide, by decide, by decide⟩

/-- A successful parse implies no exclusion token was a group key. -/
theorem ParseBenchmarksOption_ok_no_group_neg (opt : String) (g : Groups)
    (fuel : Nat) (S : List String)
    (h : ParseBenchmarksOption opt g fuel = .ok S) :
    ∀ b ∈ negativesOf opt, List.lookup b g = none := by
  obtain ⟨legal, hall⟩ := ParseBenchmarksOption_ok_all opt g fuel S h
  rw [ParseBenchmarksOption_eq opt g fuel legal hall] at h
  by_cases hp0 : positivesOf opt = []
  · rw [if_pos hp0] at h
    cases hd : ExpandBenchmarkName g fuel "default" with
    | none => rw [hd] at h; cases h
    | some d =>
      rw [hd, hp0] at h
      have h2 : ProcessNegatives g legal (negativesOf opt) (addAll [] d) = .ok S := h
      exact (ProcessNegatives_ok g legal (negativesOf opt) (addAll [] d) S
        (nodup_addAll d [] List.nodup_nil) h2).2.2
  · rw [if_neg hp0] at h
    have h2 : (match ProcessPositives g legal fuel (positivesOf opt) [] with
        | .error e => (.error e : Except ParseError (List String))
        | .ok sr => ProcessNegatives g legal (negativesOf opt) sr) = .ok S := h
    cases hp : ProcessPositives g legal fuel (positivesOf opt) [] with
    | error e => rw [hp] at h2; cases h2
    | ok sr =>
      rw [hp] at h2
      have h3 : ProcessNegatives g legal (negativesOf opt) sr = .ok S := h2
      exact (ProcessNegatives_ok g legal (negativesOf opt) sr S
        ((ProcessPositives_ok g legal fuel _ [] sr hp).2 List.nodup_nil) h3).2.2

/-- Inversion of a successful `cmd_run_order`. -/
theorem cmd_run_order_ok_inv (opt : String) (g : Groups) (funcs : Funcs)
    (basever : String) (fuel : Nat) (l : List String)
    (h : cmd_run_order opt g funcs basever fuel = .ok l) :
    ∃ S sr, ParseBenchmarksOption opt g fuel = .ok S ∧
      FilterBenchmarks S funcs basever = .ok sr ∧
      l = List.insertionSort pyLeRel sr := by
  unfold cmd_run_order at h
  cases hp : ParseBenchmarksOption opt g fuel with
  | error e => rw [hp] at h; cases h
  | ok S =>
    rw [hp] at h
    have h2 : (match FilterBenchmarks S funcs basever with
        | .error e => (.error e : Except ParseError (List String))
        | .ok sr => .ok (List.insertionSort pyLeRel sr)) = .ok l := h
    cases hf : FilterBenchmarks S funcs basever with
    | error e => rw [hf] at h2; cases h2
    | ok sr =>
      rw [hf] at h2
      exact ⟨S, sr, rfl, hf, (Except.ok.inj h2).symm⟩

/-- Claim C2, counterexample to the claim as stated: the selection
"nbody,-float" excludes the known leaf "float", which is not a member of
the included set, so `should_run.remove("float")` raises `KeyError` — the
function does not return the claimed set `{"nbody"}` minus `{"float"}`.
"float" is a known leaf of the catalogue (in `all`, not a group key). -/
theorem C2_counterexample_remove_keyerror :
    ParseBenchmarksOption "nbody,-float" BENCH_GROUPS_ALL 5 =
      .error (.keyError "float") ∧
    List.lookup "float" BENCH_GROUPS_ALL = none ∧
    (List.lookup "all" BENCH_GROUPS_ALL).isSome ∧
    "float" ∈ (List.lookup "all" BENCH_GROUPS_ALL).getD [] :=
  ⟨rfl, rfl, rfl, by decide⟩

/-- Claim C2 (amended): when every exclusion token is no group key and
every excluded known leaf is actually included, `ParseBenchmarksOption`
returns exactly the included set minus the legal excluded names, where the
included set is the expansion of `default` (unrestricted) when no inclusion
token is given, and the union of the expansions of the inclusion tokens
restricted to the `all` leaves otherwise; unknown tokens only warn and are
dropped. -/
theorem C2_parse_characterization (opt : String) (g : Groups) (fuel : Nat)
    (legal : List String) (hall : List.lookup "all" g = some legal)
    (hdef : positivesOf opt = [] → (ExpandBenchmarkName g fuel "default").isSome)
    (hpos : ∀ p ∈ positivesOf opt, (ExpandBenchmarkName g fuel p).isSome)
    (hng : ∀ b ∈ negativesOf opt, List.lookup b g = none)
    (hpr : ∀ b ∈ negativesOf opt, b ∈ legal →
      claimIncluded g fuel legal (positivesOf opt) b) :
    ∃ S, ParseBenchmarksOption opt g fuel = .ok S ∧
      ∀ x, x ∈ S ↔ claimIncluded g fuel legal (positivesOf opt) x ∧
        ¬(x ∈ negativesOf opt ∧ x ∈ legal) := by
  obtain ⟨S, hS⟩ := ParseBenchmarksOption_succeeds opt g fuel legal hall hdef
    hpos hng hpr
  exact ⟨S, hS, (ParseBenchmarksOption_ok_iff opt g fuel legal S hall hS).2⟩

/-- Claim C2 witness: the selection "a,b,-b" over a two-leaf catalogue. -/
theorem C2_witness :
    ∃ S, ParseBenchmarksOption "a,b,-b" [("all", ["a", "b"]), ("default", ["a"])] 5 =
        .ok S ∧
      ∀ x, x ∈ S ↔
        claimIncluded [("all", ["a", "b"]), ("default", ["a"])] 5 ["a", "b"]
          (positivesOf "a,b,-b") x ∧
        ¬(x ∈ negativesOf "a,b,-b" ∧ x ∈ ["a", "b"]) :=
  C2_parse_characterization "a,b,-b" [("all", ["a", "b"]), ("default", ["a"])] 5
    ["a", "b"] rfl (by decide) (by decide) (by decide) (by decide)

/-- Claim C8, counterexample to the claim as stated: the selection
"-float,-regex" contains the exclusion token "regex", which names a group
of the catalogue, yet the parse fails with the `KeyError` of the earlier
excluded leaf "float" rather than with `UnsupportedExclusion` (in the
source the choice even depends on the unspecified hash order of the
exclusion set). -/
theorem C8_counterexample_keyerror_first :
    ParseBenchmarksOption "-float,-regex" BENCH_GROUPS_ALL 5 =
      .error (.keyError "float") ∧
    "regex" ∈ negativesOf "-float,-regex" ∧
    (List.lookup "regex" BENCH_GROUPS_ALL).isSome :=
  ⟨rfl, by decide, rfl⟩

/-- Claim C8 (amended): a selection whose exclusion tokens contain a group
key never returns a benchmark set; and when every other exclusion token is
harmless (no group key, and if a known leaf then actually included), the
fault is precisely `UnsupportedExclusion` on a group-naming token — the
excluded group is neither expanded nor ignored. -/
theorem C8_group_exclusion_faults (opt : String) (g : Groups) (fuel : Nat)
    (hx : ∃ b ∈ negativesOf opt, (List.lookup b g).isSome) :
    (∀ S, ParseBenchmarksOption opt g fuel ≠ .ok S) ∧
    (∀ legal, List.lookup "all" g = some legal →
      (positivesOf opt = [] → (ExpandBenchmarkName g fuel "default").isSome) →
      (∀ p ∈ positivesOf opt, (ExpandBenchmarkName g fuel p).isSome) →
      (∀ b ∈ negativesOf opt, List.lookup b g = none → b ∈ legal →
        claimIncluded g fuel legal (positivesOf opt) b) →
      ∃ g0, g0 ∈ negativesOf opt ∧ (List.lookup g0 g).isSome ∧
        ParseBenchmarksOption opt g fuel = .error (.unsupportedExclusion g0)) := by
  constructor
  · intro S hS
    have hnone := ParseBenchmarksOption_ok_no_group_neg opt g fuel S hS
    rcases hx with ⟨b, hb, hbs⟩
    rw [hnone b hb] at hbs
    cases hbs
  · intro legal hall hdef hpos hpr
    by_cases hp0 : positivesOf opt = []
    · rw [ParseBenchmarksOption_eq opt g fuel legal hall, if_pos hp0]
      obtain ⟨d, hd⟩ := Option.isSome_iff_exists.mp (hdef hp0)
      rw [hd, hp0]
      obtain ⟨g0, hg0, hg0s, heq⟩ := ProcessNegatives_group_fault g legal
        (negativesOf opt) (addAll [] d) (negativesOf_nodup opt) hx
        (by
          intro b hb hbn hbl
          have hci := hpr b hb hbn hbl
          unfold claimIncluded at hci
          rcases hci with ⟨_, hbd⟩ | ⟨hne, _⟩
          · rw [mem_addAll]
            right
            simpa [expandSet, hd] using hbd
          · exact absurd hp0 hne)
      exact ⟨g0, hg0, hg0s, heq⟩
    · rw [ParseBenchmarksOption_eq opt g fuel legal hall, if_neg hp0]
      obtain ⟨sr, hsr⟩ := ProcessPositives_succeeds g legal fuel
        (positivesOf opt) [] hpos
      obtain ⟨hiffP, _⟩ := ProcessPositives_ok g legal fuel (positivesOf opt)
        [] sr hsr
      obtain ⟨g0, hg0, hg0s, heq⟩ := ProcessNegatives_group_fault g legal
        (negativesOf opt) sr (negativesOf_nodup opt) hx
        (by
          intro b hb hbn hbl
          have hci := hpr b hb hbn hbl
          unfold claimIncluded at hci
          rcases hci with ⟨he, _⟩ | ⟨_, p, h1, h2, h3⟩
          · exact absurd he hp0
          · exact (hiffP b).mpr (Or.inr ⟨p, h1, h2, h3⟩))
      refine ⟨g0, hg0, hg0s, ?_⟩
      show (match ProcessPositives g legal fuel (positivesOf opt) [] with
          | .error e => (.error e : Except ParseError (List String))
          | .ok sr2 => ProcessNegatives g legal (negativesOf opt) sr2) = _
      rw [hsr]
      exact heq

/-- Claim C8 witness: excluding the group "grp" in a small catalogue. -/
theorem C8_witness :
    ∃ g0, g0 ∈ negativesOf "a,-grp" ∧
      (List.lookup g0 [("all", ["a", "b"]), ("grp", ["a"])]).isSome ∧
      ParseBenchmarksOption "a,-grp" [("all", ["a", "b"]), ("grp", ["a"])] 5 =
        .error (.unsupportedExclusion g0) :=
  (C8_group_exclusion_faults "a,-grp" [("all", ["a", "b"]), ("grp", ["a"])] 5
    (by decide)).2 ["a", "b"] rfl (by decide) (by decide) (by decide)

/-- Claim C7, counterexample to the claim as stated: "threading" is a named
group of the built catalogue distinct from "all", and its expansion
contains "threaded_count", which is NOT in the expansion of "all" (both
members of "threading" are deprecated), so `expand("all")` is not a
superset of every other group's expansion. -/
theorem C7_counterexample_threading :
    (List.lookup "threading" BENCH_GROUPS_ALL).isSome ∧
    "threading" ≠ "all" ∧
    (ExpandBenchmarkName BENCH_GROUPS_ALL 5 "threading").isSome ∧
    (ExpandBenchmarkName BENCH_GROUPS_ALL 5 "all").isSome ∧
    "threaded_count" ∈ expandSet BENCH_GROUPS_ALL 5 "threading" ∧
    "threaded_count" ∉ expandSet BENCH_GROUPS_ALL 5 "all" :=
  ⟨rfl, by decide, rfl, rfl, by decide, by decide⟩

/-- Claim C7 (amended): in the built catalogue, the expansion of "all"
contains no deprecated name, every named group's expansion succeeds, and
the NON-DEPRECATED part of every other named group's expansion is contained
in the expansion of "all". -/
theorem C7_all_group_characterization :
    (∀ x ∈ expandSet BENCH_GROUPS_ALL 5 "all", x ∉ deprecatedGroup) ∧
    (∀ p ∈ BENCH_GROUPS_ALL, (ExpandBenchmarkName BENCH_GROUPS_ALL 5 p.1).isSome) ∧
    (∀ p ∈ BENCH_GROUPS_ALL, p.1 ≠ "all" →
      ∀ x ∈ expandSet BENCH_GROUPS_ALL 5 p.1, x ∉ deprecatedGroup →
        x ∈ expandSet BENCH_GROUPS_ALL 5 "all") := by decide

/-- Claim C7 witness: the "default" member "2to3" is in the "all"
expansion. -/
theorem C7_witness :
    "2to3" ∈ expandSet BENCH_GROUPS_ALL 5 "all" :=
  C7_all_group_characterization.2.2
    ("default", ["2to3", "chameleon", "django_template", "nbody",
      "tornado_http", "fastpickle", "fastunpickle", "regex_v8",
      "json_dump_v2", "json_load"]) (by decide) (by decide)
    "2to3" (by decide) (by decide)

/-- Claim C10: the benchmark execution order of `cmd_run` is the ascending
Python string (lexicographic) order of the selected names, and it is
canonical: any selection string with the same positive and negative token
sets that also succeeds yields the identical execution order, regardless of
the order tokens appeared. -/
theorem C10_run_order_sorted (opt : String) (g : Groups) (funcs : Funcs)
    (basever : String) (fuel : Nat) (l : List String)
    (h : cmd_run_order opt g funcs basever fuel = .ok l) :
    List.Sorted pyLeRel l ∧
    ∀ opt2 l2, (∀ x, x ∈ positivesOf opt2 ↔ x ∈ positivesOf opt) →
      (∀ x, x ∈ negativesOf opt2 ↔ x ∈ negativesOf opt) →
      cmd_run_order opt2 g funcs basever fuel = .ok l2 → l2 = l := by
  obtain ⟨S, sr, hp, hf, hl⟩ := cmd_run_order_ok_inv opt g funcs basever fuel l h
  constructor
  · rw [hl]
    exact List.sorted_insertionSort pyLeRel sr
  · intro opt2 l2 hpos2 hneg2 h2
    obtain ⟨S2, sr2, hp2, hf2, hl2⟩ :=
      cmd_run_order_ok_inv opt2 g funcs basever fuel l2 h2
    obtain ⟨legal, hall⟩ := ParseBenchmarksOption_ok_all opt g fuel S hp
    obtain ⟨hndS, hiffS⟩ :=
      ParseBenchmarksOption_ok_iff opt g fuel legal S hall hp
    obtain ⟨hndS2, hiffS2⟩ :=
      ParseBenchmarksOption_ok_iff opt2 g fuel legal S2 hall hp2
    have hposnil : positivesOf opt2 = [] ↔ positivesOf opt = [] := by
      rw [List.eq_nil_iff_forall_not_mem, List.eq_nil_iff_forall_not_mem]
      constructor
      · intro hh x hx; exact hh x ((hpos2 x).mpr hx)
      · intro hh x hx; exact hh x ((hpos2 x).mp hx)
    have hci : ∀ x, claimIncluded g fuel legal (positivesOf opt2) x ↔
        claimIncluded g fuel legal (positivesOf opt) x := by
      intro x
      unfold claimIncluded
      constructor
      · rintro (⟨he, hx⟩ | ⟨hne, p, h1, h2a, h3⟩)
        · exact Or.inl ⟨hposnil.mp he, hx⟩
        · exact Or.inr ⟨fun e => hne (hposnil.mpr e), p, (hpos2 p).mp h1, h2a, h3⟩
      · rintro (⟨he, hx⟩ | ⟨hne, p, h1, h2a, h3⟩)
        · exact Or.inl ⟨hposnil.mpr he, hx⟩
        · exact Or.inr ⟨fun e => hne (hposnil.mp e), p, (hpos2 p).mpr h1, h2a, h3⟩
    have hSmem : ∀ x, x ∈ S2 ↔ x ∈ S := by
      intro x
      rw [hiffS2 x, hiffS x, hci x, hneg2 x]
    obtain ⟨hiffF, hsubF⟩ := FilterBenchmarks_ok funcs basever S sr hf
    obtain ⟨hiffF2, hsubF2⟩ := FilterBenchmarks_ok funcs basever S2 sr2 hf2
    have hsrmem : ∀ x, x ∈ sr2 ↔ x ∈ sr := by
      intro x
      rw [hiffF x, hiffF2 x, hSmem x]
    have hndsr : sr.Nodup := hsubF.nodup hndS
    have hndsr2 : sr2.Nodup := hsubF2.nodup hndS2
    have hperm : List.Perm sr2 sr :=
      (List.perm_ext_iff_of_nodup hndsr2 hndsr).mpr hsrmem
    rw [hl, hl2]
    refine List.eq_of_perm_of_sorted ?_ (List.sorted_insertionSort pyLeRel sr2)
      (List.sorted_insertionSort pyLeRel sr)
    exact ((List.perm_insertionSort pyLeRel sr2).trans hperm).trans
      (List.perm_insertionSort pyLeRel sr).symm

/-- Claim C10 witness: the selection "nbody,2to3" runs in sorted order
["2to3", "nbody"], and the permuted selection "2to3,nbody" yields the same
order. -/
theorem C10_witness :
    List.Sorted pyLeRel ["2to3", "nbody"] ∧
    (["2to3", "nbody"] : List String) = ["2to3", "nbody"] := by
  have h := C10_run_order_sorted "nbody,2to3" BENCH_GROUPS_ALL BENCH_FUNCS
    "2.7" 5 ["2to3", "nbody"] rfl
  refine ⟨h.1, h.2 "2to3,nbody" ["2to3", "nbody"] ?_ ?_ rfl⟩
  · intro x
    have e1 : positivesOf "2to3,nbody" = ["2to3", "nbody"] := rfl
    have e2 : positivesOf "nbody,2to3" = ["nbody", "2to3"] := rfl
    rw [e1, e2]
    simp only [List.mem_cons, List.not_mem_nil, or_false]
    tauto
  · intro x
    exact Iff.rfl
